import Mathlib

/-!
Verification of the JSON safe-loading utilities of the TradingAgents repository
(`tradingagents/dataflows/json_validator.py` and
`tradingagents/dataflows/finnhub_utils.py`).

The Python code delegates parsing to the standard-library `json` module and
varies only the byte-level decoding and the control flow around it.  The
development therefore contains

* an executable model of the standard JSON decoder (`pyJsonParse`), covering
  the JSON grammar exactly as CPython's pure-Python scanner accepts it, with
  the `strict` flag controlling whether raw control characters are allowed
  inside string literals (the only thing `strict` controls);
* a byte-level file model (`FByte`, `PyFile`): a file is a sequence of
  decoded units, each either a valid character or an ill-formed UTF-8 byte
  sequence, plus a flag signalling that reading the file raises an I/O error;
* direct translations of the functions of `json_validator.py`
  (`load_json_safe`, `sanitize_json_string`, `validate_json_file`,
  `validate_jsonl_file`, `validate_data_directory`) and of the range filter
  of `finnhub_utils.py` (`get_data_in_range`), with exceptions rendered as
  `Option`/explicit flags.

Model restrictions (irrelevant to the theorems below): number tokens are kept
as their source text instead of being converted to int/float; `\uXXXX` escapes
denoting surrogate halves are rejected; digit and whitespace classes are the
ASCII ones.
-/

/-- Decoded JSON documents.  Mirrors the Python values produced by
`json.loads`: objects keep their key insertion order and, as in a Python
`dict`, a duplicated key keeps its first position and its last value. -/
inductive Json where
  | null : Json
  | bool : Bool → Json
  | num : String → Json
  | str : String → Json
  | arr : List Json → Json
  | obj : List (String × Json) → Json

/-- Whitespace accepted between JSON tokens (as in CPython's json module). -/
def jsonWsChar (c : Char) : Bool :=
  c == ' ' || c == '\t' || c == '\n' || c == '\r'

/-- Drop leading inter-token whitespace. -/
def skipWs : List Char → List Char
  | [] => []
  | c :: cs => if jsonWsChar c then skipWs cs else c :: cs

/-- Longest ASCII-digit run at the front of the input. -/
def takeDigits : List Char → List Char × List Char
  | [] => ([], [])
  | c :: cs =>
    if c.isDigit then
      let p := takeDigits cs
      (c :: p.1, p.2)
    else ([], c :: cs)

/-- Integer part of a JSON number: `0` or a nonzero digit followed by digits
(JSON forbids leading zeros). -/
def lexIntPart : List Char → Option (List Char × List Char)
  | [] => none
  | c :: cs =>
    if c == '0' then some (['0'], cs)
    else if c.isDigit then
      let p := takeDigits cs
      some (c :: p.1, p.2)
    else none

/-- Optional fraction part `.digits`; consumes nothing if absent/ill-formed,
mirroring the optional regex group of CPython's number lexer. -/
def lexFrac : List Char → List Char × List Char
  | [] => ([], [])
  | c :: cs =>
    if c == '.' then
      let p := takeDigits cs
      if p.1.isEmpty then ([], c :: cs) else (c :: p.1, p.2)
    else ([], c :: cs)

/-- Optional exponent part `[eE][+-]?digits`; consumes nothing if
absent/ill-formed. -/
def lexExp : List Char → List Char × List Char
  | [] => ([], [])
  | c :: cs =>
    if c == 'e' || c == 'E' then
      match cs with
      | [] => ([], [c])
      | s :: cs2 =>
        if s == '+' || s == '-' then
          let p := takeDigits cs2
          if p.1.isEmpty then ([], c :: s :: cs2) else (c :: s :: p.1, p.2)
        else
          let p := takeDigits cs
          if p.1.isEmpty then ([], c :: cs) else (c :: p.1, p.2)
    else ([], c :: cs)

/-- Lex a JSON number token, keeping its text. -/
def pNumber : List Char → Option (Json × List Char)
  | [] => none
  | c :: cs =>
    if c == '-' then
      match lexIntPart cs with
      | none => none
      | some (ds, r) =>
        let f := lexFrac r
        let e := lexExp f.2
        some (.num ⟨'-' :: (ds ++ f.1 ++ e.1)⟩, e.2)
    else
      match lexIntPart (c :: cs) with
      | none => none
      | some (ds, r) =>
        let f := lexFrac r
        let e := lexExp f.2
        some (.num ⟨ds ++ f.1 ++ e.1⟩, e.2)

/-- Value of a hexadecimal digit. -/
def hexVal (c : Char) : Option Nat :=
  if c.isDigit then some (c.toNat - 48)
  else if 'a' ≤ c ∧ c ≤ 'f' then some (c.toNat - 87)
  else if 'A' ≤ c ∧ c ≤ 'F' then some (c.toNat - 70)
  else none

/-- Single-character JSON escapes. -/
def escChar (e : Char) : Option Char :=
  if e == '"' then some '"'
  else if e == '\\' then some '\\'
  else if e == '/' then some '/'
  else if e == 'b' then some (Char.ofNat 8)
  else if e == 'f' then some (Char.ofNat 12)
  else if e == 'n' then some '\n'
  else if e == 'r' then some '\r'
  else if e == 't' then some '\t'
  else none

/-- Body of a JSON string literal, after the opening quote.  Returns the
decoded characters and the input following the closing quote.  With
`st = true` (strict mode) a raw control character below U+0020 inside the
literal is an error; with `st = false` it is accepted verbatim — this is the
only behaviour the `strict` flag of `json.loads` controls. -/
def pStringRest (st : Bool) : List Char → Option (List Char × List Char)
  | [] => none
  | c :: cs =>
    if c == '"' then some ([], cs)
    else if c == '\\' then
      match cs with
      | [] => none
      | e :: cs2 =>
        if e == 'u' then
          match cs2 with
          | h1 :: h2 :: h3 :: h4 :: cs3 =>
            match hexVal h1, hexVal h2, hexVal h3, hexVal h4 with
            | some a, some b, some c2, some d =>
              let n := ((a * 16 + b) * 16 + c2) * 16 + d
              if 0xD800 ≤ n ∧ n < 0xE000 then none
              else
                match pStringRest st cs3 with
                | none => none
                | some p => some (Char.ofNat n :: p.1, p.2)
            | _, _, _, _ => none
          | _ => none
        else
          match escChar e with
          | none => none
          | some c3 =>
            match pStringRest st cs2 with
            | none => none
            | some p => some (c3 :: p.1, p.2)
    else if decide (c.toNat < 32) && st then none
    else
      match pStringRest st cs with
      | none => none
      | some p => some (c :: p.1, p.2)

/-- Insert a key/value pair as Python `dict` assignment does: an existing key
keeps its position and receives the new value, a new key is appended. -/
def objInsert : List (String × Json) → String → Json → List (String × Json)
  | [], k, v => [(k, v)]
  | (k0, v0) :: ms, k, v =>
    if k0 == k then (k0, v) :: ms else (k0, v0) :: objInsert ms k v

mutual

/-- Parse one JSON value (model of the recursive scanner of the json
module).  `fuel` bounds the recursion depth, standing in for CPython's
recursion limit. -/
def pValue (st : Bool) : Nat → List Char → Option (Json × List Char)
  | 0, _ => none
  | fuel + 1, cs =>
    match skipWs cs with
    | [] => none
    | c :: rest =>
      if c == '{' then pObject st fuel rest
      else if c == '[' then pArray st fuel rest
      else if c == '"' then
        match pStringRest st rest with
        | none => none
        | some p => some (.str ⟨p.1⟩, p.2)
      else if c == 'n' then
        match rest with
        | 'u' :: 'l' :: 'l' :: r => some (.null, r)
        | _ => none
      else if c == 't' then
        match rest with
        | 'r' :: 'u' :: 'e' :: r => some (.bool true, r)
        | _ => none
      else if c == 'f' then
        match rest with
        | 'a' :: 'l' :: 's' :: 'e' :: r => some (.bool false, r)
        | _ => none
      else pNumber (c :: rest)

/-- Parse an array body (after the opening bracket).  An empty remaining
input is a parse error (the element parse on it could only fail). -/
def pArray (st : Bool) : Nat → List Char → Option (Json × List Char)
  | 0, _ => none
  | fuel + 1, cs =>
    match skipWs cs with
    | [] => none
    | c :: r =>
      if c == ']' then some (.arr [], r)
      else
        match pValue st fuel (c :: r) with
        | none => none
        | some vp =>
          match pArrayRest st fuel vp.2 with
          | none => none
          | some p => some (.arr (vp.1 :: p.1), p.2)

/-- Parse the remainder of an array after one element: a `,`-separated tail
closed by `]`. -/
def pArrayRest (st : Bool) : Nat → List Char → Option (List Json × List Char)
  | 0, _ => none
  | fuel + 1, cs =>
    match skipWs cs with
    | [] => none
    | c :: r =>
      if c == ']' then some ([], r)
      else if c == ',' then
        match pValue st fuel r with
        | none => none
        | some vp =>
          match pArrayRest st fuel vp.2 with
          | none => none
          | some p => some (vp.1 :: p.1, p.2)
      else none

/-- Parse an object body (after the opening brace). -/
def pObject (st : Bool) : Nat → List Char → Option (Json × List Char)
  | 0, _ => none
  | fuel + 1, cs =>
    match skipWs cs with
    | [] => none
    | c :: r =>
      if c == '}' then some (.obj [], r)
      else if c == '"' then
        match pStringRest st r with
        | none => none
        | some kp =>
          match skipWs kp.2 with
          | [] => none
          | c2 :: r3 =>
            if c2 == ':' then
              match pValue st fuel r3 with
              | none => none
              | some vp => pObjectRest st fuel vp.2 (objInsert [] ⟨kp.1⟩ vp.1)
            else none
      else none

/-- Parse the remainder of an object after one member, accumulating members
in Python-dict insertion order. -/
def pObjectRest (st : Bool) : Nat → List Char → List (String × Json) →
    Option (Json × List Char)
  | 0, _, _ => none
  | fuel + 1, cs, acc =>
    match skipWs cs with
    | [] => none
    | c :: r =>
      if c == '}' then some (.obj acc, r)
      else if c == ',' then
        match skipWs r with
        | [] => none
        | c2 :: r2 =>
          if c2 == '"' then
            match pStringRest st r2 with
            | none => none
            | some kp =>
              match skipWs kp.2 with
              | [] => none
              | c3 :: r4 =>
                if c3 == ':' then
                  match pValue st fuel r4 with
                  | none => none
                  | some vp => pObjectRest st fuel vp.2 (objInsert acc ⟨kp.1⟩ vp.1)
                else none
          else none
      else none

end

/-- Model of `json.loads(s, strict=st)`: parse one JSON document and require
only whitespace to follow it.  `none` is a `json.JSONDecodeError`. -/
def pyJsonParse (st : Bool) (s : String) : Option Json :=
  match pValue st (2 * s.data.length + 2) s.data with
  | none => none
  | some (j, rest) => if (skipWs rest).isEmpty then some j else none

example : pyJsonParse true "null" = some .null := rfl
example : pyJsonParse true " [1, 2] " = some (.arr [.num "1", .num "2"]) := rfl
example : pyJsonParse true "\x7b\"a\": [1]\x7d" = some (.obj [("a", .arr [.num "1"])]) := rfl
example : pyJsonParse true "\x7b\"a\":1,\"a\":2\x7d" = some (.obj [("a", .num "2")]) := rfl
example : pyJsonParse true "[1," = none := rfl
example : pyJsonParse true "01" = none := rfl
example : pyJsonParse true "-12.5e+3" = some (.num "-12.5e+3") := rfl
example : pyJsonParse true "\"a\nb\"" = none := rfl
example : pyJsonParse false "\"a\nb\"" = some (.str "a\nb") := rfl
example : pyJsonParse false "\"a\\u0041\"" = some (.str "aA") := rfl
example : pyJsonParse false "x" = none := rfl

/-- One decoded unit of a file opened as UTF-8 text: either a character whose
encoding is well-formed, or an ill-formed byte sequence (which strict decoding
rejects, `errors="ignore"` drops and `errors="replace"` turns into U+FFFD). -/
inductive FByte where
  | ch : Char → FByte
  | bad : FByte

/-- Character carried by a well-formed unit. -/
def FByte.toCh : FByte → Option Char
  | .ch c => some c
  | .bad => none

/-- Model of a file on disk: its decoded units, plus a flag meaning that an
I/O error is raised while reading it (exercising the generic exception
handlers of the Python code). -/
structure PyFile where
  bytes : List FByte
  readError : Bool

/-- Filesystem model: `none` is a path for which `os.path.exists` is false. -/
def Fs : Type := String → Option PyFile

/-- Reading a file with `encoding="utf-8"` (strict): an ill-formed byte
sequence raises `UnicodeDecodeError`. -/
def decodeStrict (bs : List FByte) : Option String :=
  if bs.all (fun b => b.toCh.isSome) then some ⟨bs.filterMap FByte.toCh⟩ else none

/-- Reading with `errors="ignore"`: ill-formed byte sequences are dropped. -/
def decodeIgnore (bs : List FByte) : String :=
  ⟨bs.filterMap FByte.toCh⟩

/-- Reading with `errors="replace"`: ill-formed byte sequences become the
replacement character U+FFFD. -/
def decodeReplace (bs : List FByte) : String :=
  ⟨bs.map (fun b => b.toCh.getD '�')⟩

/-- Model of `json_validator.sanitize_json_string`: remove every NUL
character, i.e. Python's `json_string.replace('\x00', '')`.  (The further
"escape sequence" repairs announced by the comment in the source are not
implemented there.) -/
def sanitize_json_string (s : String) : String :=
  ⟨s.data.filter (fun c => c != '\x00')⟩

/-- Result of `load_json_safe`: a decoded document, or the caller-supplied
default (of arbitrary type, as in Python). -/
inductive LoadResult (α : Type) where
  | doc : Json → LoadResult α
  | defaultVal : α → LoadResult α

/-- Strategy 1 of `load_json_safe` (json_validator.py:50-57): strict UTF-8
decode, then `json.load(f, strict=False)`. -/
def loadStrategy1 (bs : List FByte) : Option Json :=
  (decodeStrict bs).bind (pyJsonParse false)

/-- Strategy 2 (json_validator.py:59-64): decode with `errors="ignore"`,
then `json.load(f, strict=False)`. -/
def loadStrategy2 (bs : List FByte) : Option Json :=
  pyJsonParse false (decodeIgnore bs)

/-- Strategy 3 (json_validator.py:66-73): decode with `errors="replace"`,
strip NUL bytes with `sanitize_json_string`, then `json.loads(..., strict=False)`. -/
def loadStrategy3 (bs : List FByte) : Option Json :=
  pyJsonParse false (sanitize_json_string (decodeReplace bs))

/-- Model of `json_validator.load_json_safe`: missing file short-circuits to
the default; otherwise the three strategies are tried in order (every
exception being caught and turned into the next attempt), and the default is
returned when all fail.  A read error makes every strategy raise, hence
fail. -/
def load_json_safe {α : Type} (fs : Fs) (file_path : String) (default : α) :
    LoadResult α :=
  match fs file_path with
  | none => .defaultVal default
  | some f =>
    if f.readError then .defaultVal default
    else
      match loadStrategy1 f.bytes with
      | some j => .doc j
      | none =>
        match loadStrategy2 f.bytes with
        | some j => .doc j
        | none =>
          match loadStrategy3 f.bytes with
          | some j => .doc j
          | none => .defaultVal default

/-- Reference reading taken from the spec's words for the refinement claim:
"decoding the raw bytes directly" — strict UTF-8 decode followed by the
standard JSON decoder in its default strict mode. -/
def decodeRawDirect (bs : List FByte) : Option Json :=
  (decodeStrict bs).bind (pyJsonParse true)

/-- Model of `json_validator.validate_json_file`: strict single-shot check —
missing file, strict-decode failure, read error or a strict-mode parse error
all yield `false`. -/
def validate_json_file (fs : Fs) (file_path : String) : Bool :=
  match fs file_path with
  | none => false
  | some f =>
    if f.readError then false
    else
      match decodeStrict f.bytes with
      | none => false
      | some s => (pyJsonParse true s).isSome

/-- Python whitespace for `str.strip()` (ASCII fragment). -/
def pySpace (c : Char) : Bool :=
  c == ' ' || c == '\t' || c == '\n' || c == '\r' || c == '\x0b' || c == '\x0c'

/-- A line is blank when `not line.strip()` holds, i.e. every character is
whitespace. -/
def lineBlank (l : String) : Bool :=
  l.data.all pySpace

/-- Universal-newline translation performed by Python text-mode reads:
CRLF and lone CR become LF. -/
def normNewlines : List Char → List Char
  | [] => []
  | '\r' :: '\n' :: rest => '\n' :: normNewlines rest
  | '\r' :: rest => '\n' :: normNewlines rest
  | c :: rest => c :: normNewlines rest

/-- Split a decoded text into the lines Python file iteration yields (the
trailing newline of each line is immaterial here and dropped). -/
def splitLinesAux : List Char → List Char → List String
  | [], [] => []
  | [], acc => [⟨acc.reverse⟩]
  | '\n' :: rest, acc => ⟨acc.reverse⟩ :: splitLinesAux rest []
  | c :: rest, acc => splitLinesAux rest (c :: acc)

/-- Lines seen by `validate_jsonl_file`: read with `errors="ignore"`,
newline-normalised, split at LF. -/
def jsonlLines (bs : List FByte) : List String :=
  splitLinesAux (normNewlines (decodeIgnore bs).data) []

/-- Scanning loop of `validate_jsonl_file` (json_validator.py:117-135):
skip blank lines, parse each other line with `json.loads(line, strict=False)`,
record 1-based numbers of failing lines, and break out once `max_errors`
errors have been collected.  Returns the recorded numbers and whether the
loop was exited by that break. -/
def scanLines (max_errors : Nat) : List String → Nat → List Nat →
    List Nat × Bool
  | [], _, acc => (acc, false)
  | l :: ls, i, acc =>
    if lineBlank l then scanLines max_errors ls (i + 1) acc
    else
      match pyJsonParse false l with
      | some _ => scanLines max_errors ls (i + 1) acc
      | none =>
        let acc2 := acc ++ [i]
        if max_errors ≤ acc2.length then (acc2, true)
        else scanLines max_errors ls (i + 1) acc2

/-- Model of `json_validator.validate_jsonl_file`.  A missing file yields
`(false, [])`; an I/O error while iterating (only reachable when the scan was
not already stopped by the error budget) yields `(false, collected errors)`;
otherwise validity is `error_lines == []`. -/
def validate_jsonl_file (fs : Fs) (file_path : String) (max_errors : Nat) :
    Bool × List Nat :=
  match fs file_path with
  | none => (false, [])
  | some f =>
    let p := scanLines max_errors (jsonlLines f.bytes) 1 []
    if !p.2 && f.readError then (false, p.1)
    else (p.1.isEmpty, p.1)

/-- The 1-based numbers of the lines of `ls` (first line numbered `i`) that
are neither blank nor parseable — the lines `validate_jsonl_file` counts as
errors. -/
def failIndicesFrom : List String → Nat → List Nat
  | [], _ => []
  | l :: ls, i =>
    if lineBlank l then failIndicesFrom ls (i + 1)
    else
      match pyJsonParse false l with
      | some _ => failIndicesFrom ls (i + 1)
      | none => i :: failIndicesFrom ls (i + 1)

example : jsonlLines ("\x7b\"a\":1\x7d\n\nx\n".data.map FByte.ch) = ["\x7b\"a\":1\x7d", "", "x"] := rfl
example : failIndicesFrom ["\x7b\"a\":1\x7d", "", "x"] 1 = [3] := rfl
example : validate_jsonl_file (fun _ => some ⟨"1\nx\n \ny".data.map FByte.ch, false⟩) "f" 10 = (false, [2, 4]) := rfl
example : validate_jsonl_file (fun _ => some ⟨"x\ny\nz".data.map FByte.ch, false⟩) "f" 2 = (false, [1, 2]) := rfl
example : validate_jsonl_file (fun _ => none) "f" 10 = (false, []) := rfl


/-- Python string `<` on code points (lexicographic). -/
def pyStrCharsLt : List Char → List Char → Bool
  | [], [] => false
  | [], _ :: _ => true
  | _ :: _, [] => false
  | a :: as, b :: bs =>
    if a.val < b.val then true
    else if b.val < a.val then false
    else pyStrCharsLt as bs

/-- Python string `<=` on code points. -/
def pyStrLe (a b : String) : Bool :=
  !(pyStrCharsLt b.data a.data)

/-- Python `len` on a decoded JSON value: defined for strings, arrays and
objects; `none` is the `TypeError` raised on the other values. -/
def pyLen : Json → Option Nat
  | .str s => some s.data.length
  | .arr l => some l.length
  | .obj l => some l.length
  | _ => none

/-- Python truthiness of a decoded JSON value (`if not data`). -/
def jsonTruthy : Json → Bool
  | .null => false
  | .bool b => b
  | .num t => !(t.data.all (fun c => !c.isDigit || c == '0'))
  | .str s => !s.data.isEmpty
  | .arr l => !l.isEmpty
  | .obj l => !l.isEmpty

/-- Range-filter loop of `finnhub_utils.get_data_in_range` (lines 41-45):
keep the entries whose key lies in the inclusive range and whose value is
non-empty.  The key comparison short-circuits, so `len` — and hence the
possible `TypeError`, modelled as `none` — is only reached for in-range
entries. -/
def filterDateRange : List (String × Json) → String → String →
    Option (List (String × Json))
  | [], _, _ => some []
  | (k, v) :: rest, start_date, end_date =>
    if pyStrLe start_date k && pyStrLe k end_date then
      match pyLen v with
      | none => none
      | some n =>
        if 0 < n then
          match filterDateRange rest start_date end_date with
          | none => none
          | some tail => some ((k, v) :: tail)
        else filterDateRange rest start_date end_date
    else filterDateRange rest start_date end_date

/-- Model of `finnhub_utils.get_data_in_range`: resolve the deterministic
path (a falsy `period`, `None` or the empty string, selects the unqualified
file name), load with `load_json_safe` and default `{}`, return `{}` when the
loaded value is falsy, and otherwise apply the range filter; a loaded
non-mapping truthy value raises (`none`). -/
def get_data_in_range (fs : Fs)
    (ticker start_date end_date data_type data_dir : String)
    (period : Option String) : Option (List (String × Json)) :=
  let data_path :=
    match period with
    | some p =>
      if p.isEmpty then
        data_dir ++ "/finnhub_data/" ++ data_type ++ "/" ++ ticker ++
          "_data_formatted.json"
      else
        data_dir ++ "/finnhub_data/" ++ data_type ++ "/" ++ ticker ++ "_" ++
          p ++ "_data_formatted.json"
    | none =>
      data_dir ++ "/finnhub_data/" ++ data_type ++ "/" ++ ticker ++
        "_data_formatted.json"
  let data :=
    match load_json_safe fs data_path (Json.obj []) with
    | .doc j => j
    | .defaultVal d => d
  if jsonTruthy data then
    match data with
    | .obj entries => filterDateRange entries start_date end_date
    | _ => none
  else some []

/-- Per-category tallies of the directory report: `.json` files. -/
structure JsonCat where
  total : Nat
  valid : Nat
  invalid : List String

/-- Per-category tallies of the directory report: `.jsonl` files, an invalid
entry carrying its error line numbers. -/
structure JsonlCat where
  total : Nat
  valid : Nat
  invalid : List (String × List Nat)

/-- Report built by `validate_data_directory`. -/
structure DirReport where
  valid : Bool
  json_files : JsonCat
  jsonl_files : JsonlCat

/-- Result of `validate_data_directory`: the missing-directory early return,
or a report. -/
inductive DirResult where
  | dirMissing : DirResult
  | report : DirReport → DirResult

/-- Python `str.endswith` (on the model's character lists). -/
def pyEndsWith (s suffix : String) : Bool :=
  List.isSuffixOf suffix.data s.data

/-- Per-file step of the `validate_data_directory` walk
(json_validator.py:162-185). -/
def dirStep (fs : Fs) (r : DirReport) (file_path : String) : DirReport :=
  if pyEndsWith file_path ".json" then
    if validate_json_file fs file_path then
      { r with json_files :=
          { r.json_files with
              total := r.json_files.total + 1
              valid := r.json_files.valid + 1 } }
    else
      { r with
          valid := false
          json_files :=
            { r.json_files with
                total := r.json_files.total + 1
                invalid := r.json_files.invalid ++ [file_path] } }
  else if pyEndsWith file_path ".jsonl" then
    let p := validate_jsonl_file fs file_path 10
    if p.1 then
      { r with jsonl_files :=
          { r.jsonl_files with
              total := r.jsonl_files.total + 1
              valid := r.jsonl_files.valid + 1 } }
    else
      { r with
          valid := false
          jsonl_files :=
            { r.jsonl_files with
                total := r.jsonl_files.total + 1
                invalid := r.jsonl_files.invalid ++ [(file_path, p.2)] } }
  else r

/-- Initial accumulator of the walk. -/
def dirInit : DirReport :=
  { valid := true,
    json_files := { total := 0, valid := 0, invalid := [] },
    jsonl_files := { total := 0, valid := 0, invalid := [] } }

/-- Fold of the walk over the files found under the directory. -/
def dirFold (fs : Fs) (files : List String) : DirReport :=
  files.foldl (dirStep fs) dirInit

/-- Model of `json_validator.validate_data_directory`.  `dirs` lists, for an
existing directory, the file paths `os.walk` visits under it. -/
def validate_data_directory (dirs : String → Option (List String)) (fs : Fs)
    (data_dir : String) : DirResult :=
  match dirs data_dir with
  | none => .dirMissing
  | some files => .report (dirFold fs files)

example :
    filterDateRange
      [("2024-01-01", .arr [.num "1"]), ("2024-02-01", .arr []),
        ("2024-03-01", .arr [.num "2"])] "2024-01-01" "2024-02-15" =
      some [("2024-01-01", .arr [.num "1"])] := rfl
example :
    get_data_in_range (fun _ => none) "AAPL" "2024-01-01" "2024-02-15"
      "news_data" "/data" none = some [] := rfl


/-! ## Helper lemmas -/

theorem string_mk_data (s : String) : String.mk s.data = s := by
  cases s
  rfl

theorem filterMap_toCh_map_ch (l : List Char) :
    (l.map FByte.ch).filterMap FByte.toCh = l := by
  induction l with
  | nil => rfl
  | cons c l ih => simpa [FByte.toCh] using ih

theorem all_toCh_map_ch (l : List Char) :
    (l.map FByte.ch).all (fun b => b.toCh.isSome) = true := by
  induction l with
  | nil => rfl
  | cons c l ih => simp [FByte.toCh, ih]

theorem decodeStrict_map_ch (l : List Char) :
    decodeStrict (l.map FByte.ch) = some ⟨l⟩ := by
  have h := filterMap_toCh_map_ch l
  have ha := all_toCh_map_ch l
  simp only [decodeStrict, ha, if_true, h]

theorem decodeIgnore_map_ch (l : List Char) :
    decodeIgnore (l.map FByte.ch) = ⟨l⟩ := by
  have h := filterMap_toCh_map_ch l
  simp only [decodeIgnore, h]

theorem map_getD_toCh_map_ch (l : List Char) :
    (l.map FByte.ch).map (fun b => b.toCh.getD '�') = l := by
  induction l with
  | nil => rfl
  | cons c l ih => simpa [FByte.toCh] using ih

theorem decodeReplace_map_ch (l : List Char) :
    decodeReplace (l.map FByte.ch) = ⟨l⟩ := by
  have h := map_getD_toCh_map_ch l
  simp only [decodeReplace, h]

/-! ## C1: `load_json_safe` always yields a document or the default -/

/-- C1.  For every filesystem, path and default, `load_json_safe` returns
either a document produced by one of the parsing strategies or the
caller-supplied default.  The function is total over the model in which every
exception of the fallback chain (decode error, parse error, read error) is a
`none`/flag, so no exception propagates to the caller. -/
theorem load_json_safe_doc_or_default {α : Type} (fs : Fs) (file_path : String)
    (d : α) :
    (∃ j, load_json_safe fs file_path d = .doc j) ∨
      load_json_safe fs file_path d = .defaultVal d := by
  unfold load_json_safe
  cases hfs : fs file_path with
  | none => exact Or.inr rfl
  | some f =>
    cases hre : f.readError with
    | true => simp [hre]
    | false =>
      simp only [hre, Bool.false_eq_true, if_false]
      cases h1 : loadStrategy1 f.bytes with
      | some j => exact Or.inl ⟨j, rfl⟩
      | none =>
        cases h2 : loadStrategy2 f.bytes with
        | some j => exact Or.inl ⟨j, rfl⟩
        | none =>
          cases h3 : loadStrategy3 f.bytes with
          | some j => exact Or.inl ⟨j, rfl⟩
          | none => exact Or.inr rfl

/-! ## C8: a missing file short-circuits to the default -/

/-- C8.  For every path that does not exist and every default `D`,
`load_json_safe` returns exactly `D`; the result is determined before any of
the three strategies runs (it does not depend on any file content). -/
theorem load_json_safe_missing {α : Type} (fs : Fs) (file_path : String)
    (d : α) (h : fs file_path = none) :
    load_json_safe fs file_path d = .defaultVal d := by
  simp [load_json_safe, h]

/-- Witness for C8 at a concrete filesystem, path and default. -/
theorem load_json_safe_missing_witness :
    (fun _ => none : Fs) "conf.json" = none ∧
      load_json_safe (fun _ => none : Fs) "conf.json" (37 : Nat) =
        .defaultVal 37 :=
  ⟨rfl, load_json_safe_missing (fun _ => none) "conf.json" 37 rfl⟩

/-! ## C9: the sanitizer is idempotent -/

/-- C9.  `sanitize_json_string` is idempotent: sanitizing twice yields the
same string as sanitizing once. -/
theorem sanitize_json_string_idem (s : String) :
    sanitize_json_string (sanitize_json_string s) = sanitize_json_string s := by
  simp [sanitize_json_string, List.filter_filter]

/-! ## C2: validity component of `validate_jsonl_file` versus the error list -/

/-- C2 counterexample.  For a non-existent file the function returns
`(false, [])`: zero error line numbers were recorded, yet the validity
component is `false`, so validity is not equivalent to the error list being
empty in that case. -/
theorem validate_jsonl_valid_iff_cex :
    ¬ (((validate_jsonl_file (fun _ => none) "missing.jsonl" 10).1 = true) ↔
        (validate_jsonl_file (fun _ => none) "missing.jsonl" 10).2 = []) := by
  decide

/-- C2 amended.  The validity component implies the error list is empty
unconditionally; the converse — hence the claimed equivalence — holds when
the file exists and reading it raises no error; a missing file yields
`(false, [])`, validity `false` with zero recorded error lines. -/
theorem validate_jsonl_valid_iff (fs : Fs) (file_path : String) (m : Nat) :
    ((validate_jsonl_file fs file_path m).1 = true →
      (validate_jsonl_file fs file_path m).2 = []) ∧
    (∀ f, fs file_path = some f → f.readError = false →
      ((validate_jsonl_file fs file_path m).1 = true ↔
        (validate_jsonl_file fs file_path m).2 = [])) ∧
    (fs file_path = none → validate_jsonl_file fs file_path m = (false, [])) := by
  refine ⟨?_, ?_, ?_⟩
  · intro h
    unfold validate_jsonl_file at h ⊢
    cases hfs : fs file_path with
    | none => simp [hfs] at h
    | some f =>
      simp only [hfs] at h ⊢
      cases hc : (!(scanLines m (jsonlLines f.bytes) 1 []).2 && f.readError) with
      | true => simp [hc] at h
      | false =>
        simp only [hc, Bool.false_eq_true, if_false] at h ⊢
        exact List.isEmpty_iff.mp h
  · intro f hf hre
    unfold validate_jsonl_file
    simp only [hf, hre, Bool.and_false, Bool.false_eq_true, if_false]
    exact ⟨fun h => List.isEmpty_iff.mp h, fun h => by simp [h]⟩
  · intro h
    simp [validate_jsonl_file, h]

/-- Witness for C2's amended theorem at a concrete valid file. -/
theorem validate_jsonl_valid_iff_witness :
    ((validate_jsonl_file
        (fun _ => some ⟨"\x7b\"a\": 1\x7d\n2\n".data.map FByte.ch, false⟩)
        "good.jsonl" 10).1 = true ↔
      (validate_jsonl_file
        (fun _ => some ⟨"\x7b\"a\": 1\x7d\n2\n".data.map FByte.ch, false⟩)
        "good.jsonl" 10).2 = []) :=
  (validate_jsonl_valid_iff
    (fun _ => some ⟨"\x7b\"a\": 1\x7d\n2\n".data.map FByte.ch, false⟩)
    "good.jsonl" 10).2.1 ⟨"\x7b\"a\": 1\x7d\n2\n".data.map FByte.ch, false⟩ rfl rfl

/-! ## C7: the range filter keeps exactly the in-range, non-empty entries -/

/-- C7.  For every date-keyed mapping whose in-range values support `len`,
the filter loop of `get_data_in_range` returns exactly the sub-mapping of
entries whose key `k` satisfies `start ≤ k ≤ end` under string comparison and
whose value is non-empty. -/
theorem filterDateRange_spec (data : List (String × Json))
    (start_date end_date : String)
    (h : ∀ kv ∈ data, pyStrLe start_date kv.1 = true →
      pyStrLe kv.1 end_date = true → (pyLen kv.2).isSome) :
    filterDateRange data start_date end_date =
      some (data.filter (fun kv =>
        pyStrLe start_date kv.1 && pyStrLe kv.1 end_date &&
          decide (0 < (pyLen kv.2).getD 0))) := by
  induction data with
  | nil => rfl
  | cons kv rest ih =>
    obtain ⟨k, v⟩ := kv
    have hrest : ∀ kv ∈ rest, pyStrLe start_date kv.1 = true →
        pyStrLe kv.1 end_date = true → (pyLen kv.2).isSome :=
      fun kv hm => h kv (List.mem_cons_of_mem _ hm)
    cases hr : (pyStrLe start_date k && pyStrLe k end_date) with
    | false =>
      simp only [filterDateRange, hr, Bool.false_eq_true, if_false,
        List.filter_cons]
      rw [ih hrest]
      have : (pyStrLe start_date k && pyStrLe k end_date &&
          decide (0 < (pyLen v).getD 0)) = false := by
        simp [hr]
      simp [this]
    | true =>
      have hrs := hr
      rw [Bool.and_eq_true] at hrs
      obtain ⟨hks, hke⟩ := hrs
      obtain ⟨n, hn⟩ := Option.isSome_iff_exists.mp
        (h (k, v) (List.mem_cons_self _ _) hks hke)
      cases hpos : decide (0 < n) with
      | true =>
        have hp : (pyStrLe start_date k && pyStrLe k end_date &&
            decide (0 < (pyLen (k, v).2).getD 0)) = true := by
          simp [hr, hn, of_decide_eq_true hpos]
        simp only [filterDateRange, hr, if_true, hn]
        rw [if_pos (of_decide_eq_true hpos), ih hrest]
        simp [List.filter_cons, hp]
      | false =>
        have hz : ¬ (0 < n) := of_decide_eq_false hpos
        have hp : (pyStrLe start_date k && pyStrLe k end_date &&
            decide (0 < (pyLen (k, v).2).getD 0)) = false := by
          simp [hn, hz]
        simp only [filterDateRange, hr, if_true, hn]
        rw [if_neg hz, ih hrest]
        simp [List.filter_cons, hp]

/-- Witness for C7 at the concrete example of the claim: the empty-valued
entry and the out-of-range entry are excluded. -/
theorem filterDateRange_spec_witness :
    filterDateRange
      [("2024-01-01", .arr [.num "1"]), ("2024-02-01", .arr []),
        ("2024-03-01", .arr [.num "2"])] "2024-01-01" "2024-02-15" =
      some [("2024-01-01", Json.arr [Json.num "1"])] :=
  (filterDateRange_spec
    [("2024-01-01", .arr [.num "1"]), ("2024-02-01", .arr []),
      ("2024-03-01", .arr [.num "2"])] "2024-01-01" "2024-02-15"
    (by decide)).trans (by rfl)

/-! ## Scan lemmas for `validate_jsonl_file` -/

theorem scanLines_fst (m : Nat) (ls : List String) : ∀ i acc,
    acc.length + (failIndicesFrom ls i).length ≤ m →
    (scanLines m ls i acc).1 = acc ++ failIndicesFrom ls i := by
  induction ls with
  | nil => intro i acc h; simp [scanLines, failIndicesFrom]
  | cons l ls ih =>
    intro i acc h
    simp only [scanLines, failIndicesFrom] at h ⊢
    cases hb : lineBlank l with
    | true =>
      simp only [hb, if_true] at h ⊢
      exact ih (i + 1) acc h
    | false =>
      simp only [hb, Bool.false_eq_true, if_false] at h ⊢
      cases hp : pyJsonParse false l with
      | some j =>
        simp only [hp] at h ⊢
        exact ih (i + 1) acc h
      | none =>
        simp only [hp, List.length_cons] at h ⊢
        have hl1 : (acc ++ [i]).length = acc.length + 1 := by simp
        by_cases hc : m ≤ (acc ++ [i]).length
        · have hnil : failIndicesFrom ls (i + 1) = [] := by
            rw [hl1] at hc
            exact List.eq_nil_of_length_eq_zero (by omega)
          rw [if_pos hc, hnil]
        · have h2 : (acc ++ [i]).length +
              (failIndicesFrom ls (i + 1)).length ≤ m := by
            rw [hl1]; omega
          rw [if_neg hc, ih (i + 1) (acc ++ [i]) h2]
          simp

theorem scanLines_break (m : Nat) (ls : List String) : ∀ i acc,
    acc.length < m →
    m ≤ acc.length + (failIndicesFrom ls i).length →
    scanLines m ls i acc =
      (acc ++ (failIndicesFrom ls i).take (m - acc.length), true) := by
  induction ls with
  | nil =>
    intro i acc hlt hge
    simp only [failIndicesFrom, List.length_nil, Nat.add_zero] at hge
    omega
  | cons l ls ih =>
    intro i acc hlt hge
    simp only [scanLines, failIndicesFrom] at hge ⊢
    cases hb : lineBlank l with
    | true =>
      simp only [hb, if_true] at hge ⊢
      exact ih (i + 1) acc hlt hge
    | false =>
      simp only [hb, Bool.false_eq_true, if_false] at hge ⊢
      cases hp : pyJsonParse false l with
      | some j =>
        simp only [hp] at hge ⊢
        exact ih (i + 1) acc hlt hge
      | none =>
        simp only [hp, List.length_cons] at hge ⊢
        have hl1 : (acc ++ [i]).length = acc.length + 1 := by simp
        by_cases hc : m ≤ (acc ++ [i]).length
        · have hm : m = acc.length + 1 := by rw [hl1] at hc; omega
          have htake : (i :: failIndicesFrom ls (i + 1)).take
              (m - acc.length) = [i] := by
            rw [hm]
            simp
          rw [if_pos hc, htake]
        · rw [hl1] at hc
          have hlt2 : (acc ++ [i]).length < m := by rw [hl1]; omega
          have hge2 : m ≤ (acc ++ [i]).length +
              (failIndicesFrom ls (i + 1)).length := by rw [hl1]; omega
          rw [if_neg (by rw [hl1]; exact hc), ih (i + 1) (acc ++ [i]) hlt2 hge2]
          have hsplit : (i :: failIndicesFrom ls (i + 1)).take
              (m - acc.length) =
              i :: (failIndicesFrom ls (i + 1)).take
                (m - (acc ++ [i]).length) := by
            have he : m - acc.length = (m - (acc ++ [i]).length) + 1 := by
              rw [hl1]; omega
            rw [he]
            simp
          rw [hsplit]
          simp

theorem failIndicesFrom_append (pref rest : List String) : ∀ i,
    failIndicesFrom (pref ++ rest) i =
      failIndicesFrom pref i ++ failIndicesFrom rest (i + pref.length) := by
  induction pref with
  | nil => intro i; simp [failIndicesFrom]
  | cons l pref ih =>
    intro i
    have harith : i + (l :: pref).length = (i + 1) + pref.length := by
      simp only [List.length_cons]
      omega
    rw [List.cons_append]
    simp only [failIndicesFrom]
    cases hb : lineBlank l with
    | true =>
      simp only [hb, if_true]
      rw [ih (i + 1), harith]
    | false =>
      simp only [hb, Bool.false_eq_true, if_false]
      cases hp : pyJsonParse false l with
      | some j =>
        simp only [hp]
        rw [ih (i + 1), harith]
      | none =>
        simp only [hp]
        rw [ih (i + 1), harith]
        simp

/-! ## C4: exact result on a file with K malformed lines within budget -/

/-- C4.  For a readable JSONL file whose lines are all non-blank and of which
exactly `K` fail to parse (`K ≤ max_errors`), `validate_jsonl_file` returns
`(K == 0, the ordered K 1-based failing line numbers)`, and the returned
sequence never exceeds `max_errors` entries. -/
theorem validate_jsonl_exact (fs : Fs) (file_path : String) (m : Nat)
    (f : PyFile) (lines : List String) (K : Nat)
    (hf : fs file_path = some f) (he : f.readError = false)
    (hl : jsonlLines f.bytes = lines)
    (hnb : ∀ l ∈ lines, lineBlank l = false)
    (hK : (failIndicesFrom lines 1).length = K)
    (hm : K ≤ m) :
    validate_jsonl_file fs file_path m =
      (decide (K = 0), failIndicesFrom lines 1) ∧
    (failIndicesFrom lines 1).length ≤ m := by
  subst hl
  subst hK
  refine ⟨?_, hm⟩
  have hfst := scanLines_fst m (jsonlLines f.bytes) 1 [] (by simpa using hm)
  rw [List.nil_append] at hfst
  unfold validate_jsonl_file
  rw [hf]
  simp only [he, Bool.and_false, Bool.false_eq_true, if_false, hfst]
  have hdec : (failIndicesFrom (jsonlLines f.bytes) 1).isEmpty =
      decide ((failIndicesFrom (jsonlLines f.bytes) 1).length = 0) := by
    cases failIndicesFrom (jsonlLines f.bytes) 1 <;> simp
  rw [hdec]

/-- Witness for C4 at a concrete two-line file whose second line is
malformed. -/
theorem validate_jsonl_exact_witness :
    validate_jsonl_file
        (fun _ => some ⟨"1\nx".data.map FByte.ch, false⟩) "lines.jsonl" 10 =
      (decide ((1 : Nat) = 0), failIndicesFrom ["1", "x"] 1) ∧
    (failIndicesFrom ["1", "x"] 1).length ≤ 10 :=
  validate_jsonl_exact
    (fun _ => some ⟨"1\nx".data.map FByte.ch, false⟩) "lines.jsonl" 10
    ⟨"1\nx".data.map FByte.ch, false⟩ ["1", "x"] 1
    rfl rfl rfl (by decide) rfl (by decide)

/-! ## C5: the error budget stops the scan and is reported in the result -/

/-- C5.  When the number of malformed lines reaches the error budget,
`validate_jsonl_file` returns normally the pair
`(false, first max_errors failing line numbers)` — the truncation shows up in
the returned value (validity `false` with exactly `max_errors` recorded
lines), not as an exception — and the scan stops there: any file agreeing
with the scanned prefix up to the budget point yields the identical
result, whatever follows. -/
theorem validate_jsonl_budget (fs : Fs) (file_path : String) (m : Nat)
    (f : PyFile) (lines : List String)
    (hf : fs file_path = some f) (hl : jsonlLines f.bytes = lines)
    (hm : 1 ≤ m) (hge : m ≤ (failIndicesFrom lines 1).length) :
    validate_jsonl_file fs file_path m =
      (false, (failIndicesFrom lines 1).take m) ∧
    ∀ fs2 f2 pref rest, lines = pref ++ rest →
      m ≤ (failIndicesFrom pref 1).length →
      fs2 file_path = some f2 → jsonlLines f2.bytes = pref →
      validate_jsonl_file fs2 file_path m =
        validate_jsonl_file fs file_path m := by
  subst hl
  have main : ∀ (g : Fs) (pf : PyFile), g file_path = some pf →
      m ≤ (failIndicesFrom (jsonlLines pf.bytes) 1).length →
      validate_jsonl_file g file_path m =
        (false, (failIndicesFrom (jsonlLines pf.bytes) 1).take m) := by
    intro g pf hg hge2
    have hbrk := scanLines_break m (jsonlLines pf.bytes) 1 []
      (by simpa using hm) (by simpa using hge2)
    rw [List.nil_append] at hbrk
    simp only [List.length_nil, Nat.sub_zero] at hbrk
    have hlen : ((failIndicesFrom (jsonlLines pf.bytes) 1).take m).length
        = m := by
      rw [List.length_take]
      omega
    have hne : (failIndicesFrom (jsonlLines pf.bytes) 1).take m ≠ [] := by
      intro hh
      rw [hh] at hlen
      simp at hlen
      omega
    have hemp : ((failIndicesFrom (jsonlLines pf.bytes) 1).take m).isEmpty
        = false := by
      cases hq : ((failIndicesFrom (jsonlLines pf.bytes) 1).take m).isEmpty
      · rfl
      · exact absurd (List.isEmpty_iff.mp hq) hne
    unfold validate_jsonl_file
    rw [hg]
    simp only [hbrk, Bool.not_true, Bool.false_and, Bool.false_eq_true,
      if_false, hemp]
  refine ⟨main fs f hf hge, ?_⟩
  intro fs2 f2 pref rest hsplit hpge hf2 hl2
  have happ := failIndicesFrom_append pref rest 1
  have htake : (failIndicesFrom (pref ++ rest) 1).take m =
      (failIndicesFrom pref 1).take m := by
    rw [happ]
    exact List.take_append_of_le_length hpge
  rw [main fs f hf hge, main fs2 f2 hf2 (by rw [hl2]; exact hpge)]
  rw [hl2, hsplit, htake]

/-- Witness for C5 at a concrete file with budget 1 and two malformed
lines. -/
theorem validate_jsonl_budget_witness :
    validate_jsonl_file
        (fun _ => some ⟨"x\ny".data.map FByte.ch, false⟩) "t.jsonl" 1 =
      (false, (failIndicesFrom ["x", "y"] 1).take 1) :=
  (validate_jsonl_budget
    (fun _ => some ⟨"x\ny".data.map FByte.ch, false⟩) "t.jsonl" 1
    ⟨"x\ny".data.map FByte.ch, false⟩ ["x", "y"]
    rfl rfl (by decide) (by decide)).1

/-! ## C10: internal consistency of the directory report -/

theorem dirStep_inv (fs : Fs) (r : DirReport) (p : String)
    (h1 : r.json_files.total = r.json_files.valid + r.json_files.invalid.length)
    (h2 : r.jsonl_files.total =
      r.jsonl_files.valid + r.jsonl_files.invalid.length)
    (h3 : r.valid = true ↔
      r.json_files.invalid = [] ∧ r.jsonl_files.invalid = []) :
    (dirStep fs r p).json_files.total =
      (dirStep fs r p).json_files.valid +
        (dirStep fs r p).json_files.invalid.length ∧
    (dirStep fs r p).jsonl_files.total =
      (dirStep fs r p).jsonl_files.valid +
        (dirStep fs r p).jsonl_files.invalid.length ∧
    ((dirStep fs r p).valid = true ↔
      (dirStep fs r p).json_files.invalid = [] ∧
      (dirStep fs r p).jsonl_files.invalid = []) := by
  unfold dirStep
  by_cases e1 : pyEndsWith p ".json"
  · by_cases e2 : validate_json_file fs p
    · simp only [e1, e2, if_true]
      exact ⟨by simp [h1]; omega, by simp [h2], by simpa using h3⟩
    · simp only [e1, e2, if_true, Bool.false_eq_true, if_false]
      refine ⟨by simp [h1]; omega, by simp [h2], ?_⟩
      simp
  · by_cases e2 : pyEndsWith p ".jsonl"
    · by_cases e3 : (validate_jsonl_file fs p 10).1
      · simp only [e1, e2, e3, Bool.false_eq_true, if_false, if_true]
        exact ⟨by simp [h1], by simp [h2]; omega, by simpa using h3⟩
      · simp only [e1, e2, e3, Bool.false_eq_true, if_false, if_true]
        refine ⟨by simp [h1], by simp [h2]; omega, ?_⟩
        simp
    · simp only [e1, e2, Bool.false_eq_true, if_false]
      exact ⟨h1, h2, h3⟩

theorem dirFold_go_inv (fs : Fs) (files : List String) : ∀ r : DirReport,
    (r.json_files.total = r.json_files.valid + r.json_files.invalid.length ∧
     r.jsonl_files.total =
       r.jsonl_files.valid + r.jsonl_files.invalid.length ∧
     (r.valid = true ↔
       r.json_files.invalid = [] ∧ r.jsonl_files.invalid = [])) →
    ((files.foldl (dirStep fs) r).json_files.total =
      (files.foldl (dirStep fs) r).json_files.valid +
        (files.foldl (dirStep fs) r).json_files.invalid.length ∧
     (files.foldl (dirStep fs) r).jsonl_files.total =
      (files.foldl (dirStep fs) r).jsonl_files.valid +
        (files.foldl (dirStep fs) r).jsonl_files.invalid.length ∧
     ((files.foldl (dirStep fs) r).valid = true ↔
      (files.foldl (dirStep fs) r).json_files.invalid = [] ∧
      (files.foldl (dirStep fs) r).jsonl_files.invalid = [])) := by
  induction files with
  | nil => intro r h; exact h
  | cons p files ih =>
    intro r h
    obtain ⟨h1, h2, h3⟩ := h
    exact ih (dirStep fs r p) (dirStep_inv fs r p h1 h2 h3)

/-- C10.  For every existing directory, the report built by
`validate_data_directory` satisfies, in each of the `.json` and `.jsonl`
categories, total = valid + number of invalid entries, and its overall
`valid` flag is true exactly when both invalid lists are empty. -/
theorem validate_data_directory_invariant
    (dirs : String → Option (List String)) (fs : Fs) (data_dir : String)
    (files : List String) (hd : dirs data_dir = some files) :
    validate_data_directory dirs fs data_dir = .report (dirFold fs files) ∧
    (dirFold fs files).json_files.total =
      (dirFold fs files).json_files.valid +
        (dirFold fs files).json_files.invalid.length ∧
    (dirFold fs files).jsonl_files.total =
      (dirFold fs files).jsonl_files.valid +
        (dirFold fs files).jsonl_files.invalid.length ∧
    ((dirFold fs files).valid = true ↔
      (dirFold fs files).json_files.invalid = [] ∧
      (dirFold fs files).jsonl_files.invalid = []) := by
  refine ⟨by simp [validate_data_directory, hd], ?_⟩
  exact dirFold_go_inv fs files dirInit (by simp [dirInit])

/-- Witness for C10 on a directory holding one missing (hence invalid)
`.json` file and one valid `.jsonl` file. -/
theorem validate_data_directory_invariant_witness :
    validate_data_directory (fun _ => some ["a.json", "b.jsonl"])
        (fun p => if p == "b.jsonl"
          then some ⟨"1\n".data.map FByte.ch, false⟩ else none)
        "/data" =
      .report (dirFold (fun p => if p == "b.jsonl"
          then some ⟨"1\n".data.map FByte.ch, false⟩ else none)
        ["a.json", "b.jsonl"]) ∧
    (dirFold (fun p => if p == "b.jsonl"
        then some ⟨"1\n".data.map FByte.ch, false⟩ else none)
      ["a.json", "b.jsonl"]).json_files.total =
      (dirFold (fun p => if p == "b.jsonl"
          then some ⟨"1\n".data.map FByte.ch, false⟩ else none)
        ["a.json", "b.jsonl"]).json_files.valid +
        (dirFold (fun p => if p == "b.jsonl"
            then some ⟨"1\n".data.map FByte.ch, false⟩ else none)
          ["a.json", "b.jsonl"]).json_files.invalid.length ∧
    (dirFold (fun p => if p == "b.jsonl"
        then some ⟨"1\n".data.map FByte.ch, false⟩ else none)
      ["a.json", "b.jsonl"]).jsonl_files.total =
      (dirFold (fun p => if p == "b.jsonl"
          then some ⟨"1\n".data.map FByte.ch, false⟩ else none)
        ["a.json", "b.jsonl"]).jsonl_files.valid +
        (dirFold (fun p => if p == "b.jsonl"
            then some ⟨"1\n".data.map FByte.ch, false⟩ else none)
          ["a.json", "b.jsonl"]).jsonl_files.invalid.length ∧
    ((dirFold (fun p => if p == "b.jsonl"
        then some ⟨"1\n".data.map FByte.ch, false⟩ else none)
      ["a.json", "b.jsonl"]).valid = true ↔
      (dirFold (fun p => if p == "b.jsonl"
          then some ⟨"1\n".data.map FByte.ch, false⟩ else none)
        ["a.json", "b.jsonl"]).json_files.invalid = [] ∧
      (dirFold (fun p => if p == "b.jsonl"
          then some ⟨"1\n".data.map FByte.ch, false⟩ else none)
        ["a.json", "b.jsonl"]).jsonl_files.invalid = []) :=
  validate_data_directory_invariant (fun _ => some ["a.json", "b.jsonl"])
    (fun p => if p == "b.jsonl"
      then some ⟨"1\n".data.map FByte.ch, false⟩ else none)
    "/data" ["a.json", "b.jsonl"] rfl

/-! ## C3: NUL-byte recovery through the sanitize-and-parse strategy -/

theorem pValue_nul (st : Bool) (fuel : Nat) (cs : List Char) :
    pValue st fuel ('\x00' :: cs) = none := by
  cases fuel with
  | zero => rfl
  | succ n =>
    have hws : skipWs ('\x00' :: cs) = '\x00' :: cs := by
      simp [skipWs, jsonWsChar]
    simp [pValue, hws, pNumber, lexIntPart]

theorem pyJsonParse_nul (st : Bool) (s : String) :
    pyJsonParse st ⟨'\x00' :: s.data⟩ = none := by
  have hd : (⟨'\x00' :: s.data⟩ : String).data = '\x00' :: s.data := rfl
  unfold pyJsonParse
  rw [hd, pValue_nul]

theorem sanitize_nul_prefix (t : String) (h : ∀ c ∈ t.data, c ≠ '\x00') :
    sanitize_json_string ⟨'\x00' :: t.data⟩ = t := by
  have hd : (⟨'\x00' :: t.data⟩ : String).data = '\x00' :: t.data := rfl
  have hself : t.data.filter (fun c => c != '\x00') = t.data :=
    List.filter_eq_self.mpr (fun a ha => by simpa using h a ha)
  unfold sanitize_json_string
  rw [hd, List.filter_cons]
  simp only [show (('\x00' != '\x00') = true) = False by simp, if_false,
    hself, string_mk_data]

/-- C3.  A file whose content is a NUL byte followed by NUL-free text that
parses as JSON defeats the first two strategies of `load_json_safe` (the NUL
survives both the strict and the `errors="ignore"` decode and is not valid at
the top level), and the document is recovered by the last-resort strategy —
read with replacement, strip NUL bytes, parse the sanitized text — rather
than the default being returned. -/
theorem load_json_safe_nul_recovery {α : Type} (fs : Fs) (file_path : String)
    (d : α) (t : String) (j : Json) (f : PyFile)
    (hnul : ∀ c ∈ t.data, c ≠ '\x00')
    (hparse : pyJsonParse false t = some j)
    (hf : fs file_path = some f)
    (hbytes : f.bytes = ('\x00' :: t.data).map FByte.ch)
    (hre : f.readError = false) :
    loadStrategy1 f.bytes = none ∧ loadStrategy2 f.bytes = none ∧
      loadStrategy3 f.bytes = some j ∧
      load_json_safe fs file_path d = .doc j := by
  have h1 : loadStrategy1 f.bytes = none := by
    rw [hbytes]
    unfold loadStrategy1
    rw [decodeStrict_map_ch]
    simpa [Option.bind] using pyJsonParse_nul false t
  have h2 : loadStrategy2 f.bytes = none := by
    rw [hbytes]
    unfold loadStrategy2
    rw [decodeIgnore_map_ch]
    exact pyJsonParse_nul false t
  have h3 : loadStrategy3 f.bytes = some j := by
    rw [hbytes]
    unfold loadStrategy3
    rw [decodeReplace_map_ch, sanitize_nul_prefix t hnul]
    exact hparse
  refine ⟨h1, h2, h3, ?_⟩
  unfold load_json_safe
  rw [hf]
  simp only [hre, Bool.false_eq_true, if_false, h1, h2, h3]

/-- Witness for C3 at the concrete file content `"\x00[1]"`. -/
theorem load_json_safe_nul_recovery_witness :
    loadStrategy1 (('\x00' :: "[1]".data).map FByte.ch) = none ∧
    loadStrategy2 (('\x00' :: "[1]".data).map FByte.ch) = none ∧
    loadStrategy3 (('\x00' :: "[1]".data).map FByte.ch) =
      some (.arr [.num "1"]) ∧
    load_json_safe
      (fun _ => some ⟨('\x00' :: "[1]".data).map FByte.ch, false⟩ : Fs)
      "payload.json" (Json.obj []) = .doc (.arr [.num "1"]) :=
  load_json_safe_nul_recovery
    (fun _ => some ⟨('\x00' :: "[1]".data).map FByte.ch, false⟩)
    "payload.json" (Json.obj []) "[1]" (.arr [.num "1"])
    ⟨('\x00' :: "[1]".data).map FByte.ch, false⟩
    (by decide) rfl rfl rfl rfl

/-! ## Strict-to-permissive monotonicity of the decoder model -/

theorem pStringRest_mono : ∀ (n : Nat) (cs : List Char)
    (r : List Char × List Char), cs.length ≤ n →
    pStringRest true cs = some r → pStringRest false cs = some r := by
  intro n
  induction n with
  | zero =>
    intro cs r hlen h
    have hnil : cs = [] := List.eq_nil_of_length_eq_zero (Nat.le_zero.mp hlen)
    subst hnil
    simp [pStringRest] at h
  | succ n ih =>
    intro cs r hlen h
    cases cs with
    | nil => simp [pStringRest] at h
    | cons c cs =>
      simp only [List.length_cons, Nat.add_le_add_iff_right] at hlen
      unfold pStringRest at h ⊢
      cases hq1 : (c == '"') with
      | true =>
        simp only [hq1, if_true] at h ⊢
        exact h
      | false =>
        simp only [hq1, Bool.false_eq_true, if_false] at h ⊢
        cases hq2 : (c == '\\') with
        | true =>
          simp only [hq2, if_true] at h ⊢
          cases cs with
          | nil => simp at h
          | cons e cs2 =>
            simp only [List.length_cons] at hlen
            cases hq3 : (e == 'u') with
            | true =>
              simp only [hq3, if_true] at h ⊢
              cases cs2 with
              | nil => simp at h
              | cons d1 cs3 =>
                cases cs3 with
                | nil => simp at h
                | cons d2 cs4 =>
                  cases cs4 with
                  | nil => simp at h
                  | cons d3 cs5 =>
                    cases cs5 with
                    | nil => simp at h
                    | cons d4 cs6 =>
                      simp only [List.length_cons] at hlen
                      cases hv1 : hexVal d1 with
                      | none => simp [hv1] at h
                      | some a =>
                        cases hv2 : hexVal d2 with
                        | none => simp [hv1, hv2] at h
                        | some b =>
                          cases hv3 : hexVal d3 with
                          | none => simp [hv1, hv2, hv3] at h
                          | some c2 =>
                            cases hv4 : hexVal d4 with
                            | none => simp [hv1, hv2, hv3, hv4] at h
                            | some d =>
                              simp only [hv1, hv2, hv3, hv4] at h ⊢
                              by_cases hs :
                                  0xD800 ≤ ((a * 16 + b) * 16 + c2) * 16 + d ∧
                                  ((a * 16 + b) * 16 + c2) * 16 + d < 0xE000
                              · rw [if_pos hs] at h
                                simp at h
                              · rw [if_neg hs] at h ⊢
                                cases hp : pStringRest true cs6 with
                                | none => simp [hp] at h
                                | some p =>
                                  simp only [hp] at h
                                  simp only [ih cs6 p (by omega) hp]
                                  exact h
            | false =>
              simp only [hq3, Bool.false_eq_true, if_false] at h ⊢
              cases hesc : escChar e with
              | none => simp [hesc] at h
              | some c3 =>
                simp only [hesc] at h ⊢
                cases hp : pStringRest true cs2 with
                | none => simp [hp] at h
                | some p =>
                  simp only [hp] at h
                  simp only [ih cs2 p (by omega) hp]
                  exact h
        | false =>
          simp only [hq2, Bool.false_eq_true, if_false] at h ⊢
          cases hc : decide (c.toNat < 32) with
          | true =>
            simp only [hc, Bool.and_true, if_true] at h
            simp at h
          | false =>
            simp only [hc, Bool.and_true, Bool.and_false,
              Bool.false_eq_true, if_false] at h ⊢
            cases hp : pStringRest true cs with
            | none => simp [hp] at h
            | some p =>
              simp only [hp] at h
              simp only [ih cs p hlen hp]
              exact h

theorem pMono : ∀ fuel : Nat,
    (∀ cs r0, pValue true fuel cs = some r0 → pValue false fuel cs = some r0) ∧
    (∀ cs r0, pArray true fuel cs = some r0 → pArray false fuel cs = some r0) ∧
    (∀ cs r0, pArrayRest true fuel cs = some r0 →
      pArrayRest false fuel cs = some r0) ∧
    (∀ cs r0, pObject true fuel cs = some r0 →
      pObject false fuel cs = some r0) ∧
    (∀ cs acc r0, pObjectRest true fuel cs acc = some r0 →
      pObjectRest false fuel cs acc = some r0) := by
  intro fuel
  induction fuel with
  | zero =>
    refine ⟨?_, ?_, ?_, ?_, ?_⟩
    · intro cs r0 h
      have h0 : pValue true 0 cs = none := rfl
      rw [h0] at h
      exact Option.noConfusion h
    · intro cs r0 h
      have h0 : pArray true 0 cs = none := rfl
      rw [h0] at h
      exact Option.noConfusion h
    · intro cs r0 h
      have h0 : pArrayRest true 0 cs = none := rfl
      rw [h0] at h
      exact Option.noConfusion h
    · intro cs r0 h
      have h0 : pObject true 0 cs = none := rfl
      rw [h0] at h
      exact Option.noConfusion h
    · intro cs acc r0 h
      have h0 : pObjectRest true 0 cs acc = none := rfl
      rw [h0] at h
      exact Option.noConfusion h
  | succ n ih =>
    obtain ⟨ihV, ihA, ihAR, ihO, ihOR⟩ := ih
    refine ⟨?_, ?_, ?_, ?_, ?_⟩
    · intro cs r0 h
      unfold pValue at h ⊢
      cases hws : skipWs cs with
      | nil => simp [hws] at h
      | cons c rest =>
        simp only [hws] at h ⊢
        cases hb1 : (c == '{') with
        | true =>
          simp only [hb1, if_true] at h ⊢
          exact ihO rest r0 h
        | false =>
          simp only [hb1, Bool.false_eq_true, if_false] at h ⊢
          cases hb2 : (c == '[') with
          | true =>
            simp only [hb2, if_true] at h ⊢
            exact ihA rest r0 h
          | false =>
            simp only [hb2, Bool.false_eq_true, if_false] at h ⊢
            cases hb3 : (c == '"') with
            | true =>
              simp only [hb3, if_true] at h ⊢
              cases hps : pStringRest true rest with
              | none => simp [hps] at h
              | some p =>
                simp only [hps] at h
                simp only [pStringRest_mono rest.length rest p le_rfl hps]
                exact h
            | false =>
              simp only [hb3, Bool.false_eq_true, if_false] at h ⊢
              cases hb4 : (c == 'n') with
              | true =>
                simp only [hb4, if_true] at h ⊢
                exact h
              | false =>
                simp only [hb4, Bool.false_eq_true, if_false] at h ⊢
                cases hb5 : (c == 't') with
                | true =>
                  simp only [hb5, if_true] at h ⊢
                  exact h
                | false =>
                  simp only [hb5, Bool.false_eq_true, if_false] at h ⊢
                  cases hb6 : (c == 'f') with
                  | true =>
                    simp only [hb6, if_true] at h ⊢
                    exact h
                  | false =>
                    simp only [hb6, Bool.false_eq_true, if_false] at h ⊢
                    exact h
    · intro cs r0 h
      unfold pArray at h ⊢
      cases hws : skipWs cs with
      | nil => simp [hws] at h
      | cons c rest =>
        simp only [hws] at h ⊢
        cases hb : (c == ']') with
        | true =>
          simp only [hb, if_true] at h ⊢
          exact h
        | false =>
          simp only [hb, Bool.false_eq_true, if_false] at h ⊢
          cases hv : pValue true n (c :: rest) with
          | none => simp [hv] at h
          | some vp =>
            simp only [hv] at h
            simp only [ihV (c :: rest) vp hv]
            cases har : pArrayRest true n vp.2 with
            | none => simp [har] at h
            | some p =>
              simp only [har] at h
              simp only [ihAR vp.2 p har]
              exact h
    · intro cs r0 h
      unfold pArrayRest at h ⊢
      cases hws : skipWs cs with
      | nil => simp [hws] at h
      | cons c rest =>
        simp only [hws] at h ⊢
        cases hb : (c == ']') with
        | true =>
          simp only [hb, if_true] at h ⊢
          exact h
        | false =>
          simp only [hb, Bool.false_eq_true, if_false] at h ⊢
          cases hcm : (c == ',') with
          | false => simp [hcm] at h
          | true =>
            simp only [hcm, if_true] at h ⊢
            cases hv : pValue true n rest with
            | none => simp [hv] at h
            | some vp =>
              simp only [hv] at h
              simp only [ihV rest vp hv]
              cases har : pArrayRest true n vp.2 with
              | none => simp [har] at h
              | some p =>
                simp only [har] at h
                simp only [ihAR vp.2 p har]
                exact h
    · intro cs r0 h
      unfold pObject at h ⊢
      cases hws : skipWs cs with
      | nil => simp [hws] at h
      | cons c rest =>
        simp only [hws] at h ⊢
        cases hb : (c == '}') with
        | true =>
          simp only [hb, if_true] at h ⊢
          exact h
        | false =>
          simp only [hb, Bool.false_eq_true, if_false] at h ⊢
          cases hq : (c == '"') with
          | false => simp [hq] at h
          | true =>
            simp only [hq, if_true] at h ⊢
            cases hps : pStringRest true rest with
            | none => simp [hps] at h
            | some kp =>
              simp only [hps] at h
              simp only [pStringRest_mono rest.length rest kp le_rfl hps]
              cases hws2 : skipWs kp.2 with
              | nil => simp [hws2] at h
              | cons c2 r3 =>
                simp only [hws2] at h ⊢
                cases hcol : (c2 == ':') with
                | false => simp [hcol] at h
                | true =>
                  simp only [hcol, if_true] at h ⊢
                  cases hv : pValue true n r3 with
                  | none => simp [hv] at h
                  | some vp =>
                    simp only [hv] at h
                    simp only [ihV r3 vp hv]
                    exact ihOR vp.2 (objInsert [] ⟨kp.1⟩ vp.1) r0 h
    · intro cs acc r0 h
      unfold pObjectRest at h ⊢
      cases hws : skipWs cs with
      | nil => simp [hws] at h
      | cons c rest =>
        simp only [hws] at h ⊢
        cases hb : (c == '}') with
        | true =>
          simp only [hb, if_true] at h ⊢
          exact h
        | false =>
          simp only [hb, Bool.false_eq_true, if_false] at h ⊢
          cases hcm : (c == ',') with
          | false => simp [hcm] at h
          | true =>
            simp only [hcm, if_true] at h ⊢
            cases hws2 : skipWs rest with
            | nil => simp [hws2] at h
            | cons c2 r2 =>
              simp only [hws2] at h ⊢
              cases hq : (c2 == '"') with
              | false => simp [hq] at h
              | true =>
                simp only [hq, if_true] at h ⊢
                cases hps : pStringRest true r2 with
                | none => simp [hps] at h
                | some kp =>
                  simp only [hps] at h
                  simp only [pStringRest_mono r2.length r2 kp le_rfl hps]
                  cases hws3 : skipWs kp.2 with
                  | nil => simp [hws3] at h
                  | cons c3 r4 =>
                    simp only [hws3] at h ⊢
                    cases hcol : (c3 == ':') with
                    | false => simp [hcol] at h
                    | true =>
                      simp only [hcol, if_true] at h ⊢
                      cases hv : pValue true n r4 with
                      | none => simp [hv] at h
                      | some vp =>
                        simp only [hv] at h
                        simp only [ihV r4 vp hv]
                        exact ihOR vp.2 (objInsert acc ⟨kp.1⟩ vp.1) r0 h

theorem pyJsonParse_mono (s : String) (j : Json)
    (h : pyJsonParse true s = some j) : pyJsonParse false s = some j := by
  unfold pyJsonParse at h ⊢
  cases hv : pValue true (2 * s.data.length + 2) s.data with
  | none =>
    rw [hv] at h
    exact Option.noConfusion h
  | some p =>
    obtain ⟨pj, pr⟩ := p
    simp only [hv] at h
    simp only [(pMono (2 * s.data.length + 2)).1 s.data (pj, pr) hv]
    exact h

/-! ## C6: valid input is decoded by the first strategy, unchanged -/

/-- C6.  For every readable file whose bytes decode strictly as UTF-8 to a
strictly valid JSON text, `load_json_safe` returns exactly the document
obtained by decoding the raw bytes directly with the standard (strict) JSON
decoder: the first strategy succeeds, and its permissive mode does not change
the result on valid input. -/
theorem load_json_safe_valid_refines {α : Type} (fs : Fs) (file_path : String)
    (d : α) (f : PyFile) (j : Json)
    (hf : fs file_path = some f) (hre : f.readError = false)
    (hdirect : decodeRawDirect f.bytes = some j) :
    loadStrategy1 f.bytes = some j ∧
      load_json_safe fs file_path d = .doc j := by
  obtain ⟨s, hs, hp⟩ : ∃ s, decodeStrict f.bytes = some s ∧
      pyJsonParse true s = some j := by
    unfold decodeRawDirect at hdirect
    cases hd : decodeStrict f.bytes with
    | none => simp [hd] at hdirect
    | some s =>
      simp only [hd, Option.some_bind] at hdirect
      exact ⟨s, rfl, hdirect⟩
  have h1 : loadStrategy1 f.bytes = some j := by
    unfold loadStrategy1
    rw [hs]
    simpa using pyJsonParse_mono s j hp
  refine ⟨h1, ?_⟩
  unfold load_json_safe
  rw [hf]
  simp only [hre, Bool.false_eq_true, if_false, h1]

/-- Witness for C6 at a concrete strictly-valid JSON file. -/
theorem load_json_safe_valid_refines_witness :
    loadStrategy1 ("\x7b\"a\": [1, 2]\x7d".data.map FByte.ch) =
      some (.obj [("a", .arr [.num "1", .num "2"])]) ∧
    load_json_safe
        (fun _ => some ⟨"\x7b\"a\": [1, 2]\x7d".data.map FByte.ch, false⟩ : Fs)
        "ok.json" (0 : Nat) =
      .doc (.obj [("a", .arr [.num "1", .num "2"])]) :=
  load_json_safe_valid_refines
    (fun _ => some ⟨"\x7b\"a\": [1, 2]\x7d".data.map FByte.ch, false⟩)
    "ok.json" (0 : Nat) ⟨"\x7b\"a\": [1, 2]\x7d".data.map FByte.ch, false⟩
    (.obj [("a", .arr [.num "1", .num "2"])]) rfl rfl rfl
